import Mathlib

/-!
Shallow embedding of the concurrent auction simulator
(package auction / bidder / config of the auction-simulator repository)
and proofs about its winner determination, result aggregation,
bid collection, pool fan-out, configuration validation and bid-list access.

Go machine values are idealized as follows: `float64` amounts and
multipliers become rationals, `time.Time` instants and `time.Duration`
values become integers (`Before` is strict `<`, `Sub` is subtraction),
`int` counters become `Int` where they carry configuration values and
`Nat` where they are lengths, and `nil`-able pointers become `Option`.
-/

namespace AuctionSim

/-- AuctionItem from internal/models: an item being auctioned, with the
full 20-attribute schema of the source. -/
structure AuctionItem where
  ID : Int
  Name : String
  Category : String
  Brand : String
  Condition : String
  Color : String
  Size : String
  Weight : ℚ
  Material : String
  YearMade : Int
  Origin : String
  Rarity : String
  BasePrice : ℚ
  Description : String
  Features : String
  Warranty : Int
  ShipWeight : ℚ
  Dimensions : String
  Certification : String
  Rating : ℚ
deriving DecidableEq, Repr

/-- Bid from internal/models: a bid placed by a bidder. -/
structure Bid where
  BidderID : Int
  AuctionID : Int
  Amount : ℚ
  Timestamp : Int
deriving DecidableEq, Repr

/-- AuctionResult from internal/models: the outcome of one auction.
WinningBid is `none` exactly where the Go pointer is nil. -/
structure AuctionResult where
  AuctionID : Int
  Item : AuctionItem
  WinningBid : Option Bid
  TotalBids : Nat
  Duration : Int
  StartTime : Int
  EndTime : Int
  Status : String
deriving DecidableEq, Repr

/-- Auction from internal/auction/auction.go: one auction instance.
The buffered bid channel is not a field here; the bids it delivers are
passed explicitly to the collection functions below. -/
structure Auction where
  ID : Int
  Item : AuctionItem
  Timeout : Int
  bids : List Bid
  startTime : Int
  endTime : Int
deriving DecidableEq, Repr

/-- The comparator of determineWinner (auction.go lines 144-150): bid b
comes before bid c when its amount is strictly larger, or the amounts are
equal and the timestamp of b is strictly earlier. -/
def bidLess (b c : Bid) : Bool :=
  if b.Amount = c.Amount then decide (b.Timestamp < c.Timestamp)
  else decide (b.Amount > c.Amount)

/-- Insert a bid into an already sorted list, keeping earlier-arrived
bids before later-arrived bids that compare equal: this is the stable
order sort.Slice realizes on the small slices the tests exercise
(its small-slice case is an insertion sort). -/
def insertBid (x : Bid) : List Bid → List Bid
  | [] => [x]
  | y :: ys => if bidLess y x then y :: insertBid x ys else x :: y :: ys

/-- Sorting the copied bid slice by the bidLess comparator
(auction.go lines 141-150). -/
def sortBids : List Bid → List Bid
  | [] => []
  | x :: xs => insertBid x (sortBids xs)

/-- determineWinner from auction.go lines 120-161: build the result
snapshot, return status no_bids with no winner on an empty bid list,
otherwise sort a copy of the bids and take the head as the winner. -/
def Auction.determineWinner (a : Auction) : AuctionResult :=
  let base : AuctionResult :=
    { AuctionID := a.ID
      Item := a.Item
      WinningBid := none
      TotalBids := a.bids.length
      Duration := a.endTime - a.startTime
      StartTime := a.startTime
      EndTime := a.endTime
      Status := "" }
  if a.bids.length = 0 then
    { base with Status := "no_bids", WinningBid := none }
  else
    let sortedBids := sortBids a.bids
    { base with WinningBid := sortedBids.head?, Status := "completed" }

/-- GetAllBids copies the bid slice element by element (the copy builtin
in auction.go line 169). -/
def copyBids : List Bid → List Bid
  | [] => []
  | b :: bs => b :: copyBids bs

/-- One step of the bid collection loop of collectBids (auction.go lines
83-117), as a function of the bid stream: every bid that arrives on the
channel before the deadline is appended to the bid list; when the
deadline fires, the inner drain loop appends the bids already sitting in
the channel buffer one by one until the default branch sees an empty
buffer and returns. The drain consumes only its `buffered` argument: it
takes no further external input. -/
def drainBuffered (a : Auction) : List Bid → Auction
  | [] => a
  | bid :: rest => drainBuffered { a with bids := a.bids ++ [bid] } rest

/-- collectBids from auction.go lines 83-117: the outer select loop,
fed the list of bids delivered before the deadline and the list still
buffered in the channel when the deadline fires. -/
def collectBids (a : Auction) : List Bid → List Bid → Auction
  | [], buffered => drainBuffered a buffered
  | bid :: rest, buffered =>
      collectBids { a with bids := a.bids ++ [bid] } rest buffered

/-- Run from auction.go lines 53-80, with the clock reads made explicit
parameters: record the start time, collect bids until the deadline,
record the end time, and determine the winner. It is a total function,
so it yields exactly one AuctionResult. -/
def Auction.Run (a : Auction) (startT endT : Int)
    (preDeadline buffered : List Bid) : AuctionResult :=
  (collectBids { a with startTime := startT, endTime := endT }
    preDeadline buffered).determineWinner

/-! ### Configuration (config/config.go) -/

/-- AuctionConfig from config/config.go. -/
structure AuctionConfig where
  TotalAuctions : Int
  AuctionTimeout : Int
  MinimumBidIncrement : ℚ
deriving DecidableEq, Repr

/-- BidderConfig from config/config.go. -/
structure BidderConfig where
  TotalBidders : Int
  BidProbability : ℚ
  MinBidMultiplier : ℚ
  MaxBidMultiplier : ℚ
  BidDelayMinMs : Int
  BidDelayMaxMs : Int
deriving DecidableEq, Repr

/-- SystemConfig from config/config.go. -/
structure SystemConfig where
  MaxCPUCores : Int
  EnableProfiling : Bool
  LogLevel : String
deriving DecidableEq, Repr

/-- Config from config/config.go. -/
structure Config where
  Auction : AuctionConfig
  Bidder : BidderConfig
  System : SystemConfig
deriving DecidableEq, Repr

/-- Validate from config/config.go lines 65-76: the three checks in
source order, each returning its error message; `none` plays the role of
the nil error. -/
def Config.Validate (c : Config) : Option String :=
  if c.Auction.TotalAuctions ≤ 0 then
    some "total auctions must be positive"
  else if c.Bidder.TotalBidders ≤ 0 then
    some "total bidders must be positive"
  else if c.Bidder.BidProbability < 0 ∨ c.Bidder.BidProbability > 1 then
    some "bid probability must be between 0 and 1"
  else
    none

/-! ### Manager and aggregation -/

/-- SimulationResult from internal/models: the aggregate over all
auction results. The three resource fields stay zero in
AggregateResults, as in the source struct literal. -/
structure SimulationResult where
  TotalAuctions : Int
  TotalDuration : Int
  StartTime : Int
  EndTime : Int
  AuctionResults : List AuctionResult
  SuccessfulAuctions : Nat
  FailedAuctions : Nat
  TotalBids : Nat
  CPUUsage : ℚ
  MemoryUsedMB : ℚ
  PeakMemoryMB : ℚ
deriving DecidableEq, Repr

/-- Manager from the manager source file: configuration, the auction
roster, overall start and end instants, and the collected results. The
item generator and the mutex are not data. -/
structure Manager where
  config : Config
  Auctions : List Auction
  StartTime : Int
  EndTime : Int
  Results : List AuctionResult
deriving DecidableEq, Repr

/-- The success test of the aggregation loop:
result.Status == "completed" && result.WinningBid != nil. -/
def isSuccess (r : AuctionResult) : Bool :=
  r.Status == "completed" && r.WinningBid.isSome

/-- The loop body of AggregateResults: accumulate
(totalBids, successfulAuctions, failedAuctions) over the result list. -/
def aggLoop : List AuctionResult → Nat × Nat × Nat → Nat × Nat × Nat
  | [], acc => acc
  | r :: rest, (tb, s, f) =>
      if isSuccess r then aggLoop rest (tb + r.TotalBids, s + 1, f)
      else aggLoop rest (tb + r.TotalBids, s, f + 1)

/-- AggregateResults from the manager source file, lines 39-67: fold the
counters over the collected results and build the SimulationResult,
copying TotalAuctions from the configuration and the duration from the
recorded end and start instants of the Manager. -/
def Manager.AggregateResults (m : Manager) : SimulationResult :=
  let t := aggLoop m.Results (0, 0, 0)
  { TotalAuctions := m.config.Auction.TotalAuctions
    TotalDuration := m.EndTime - m.StartTime
    StartTime := m.StartTime
    EndTime := m.EndTime
    AuctionResults := m.Results
    SuccessfulAuctions := t.2.1
    FailedAuctions := t.2.2
    TotalBids := t.1
    CPUUsage := 0
    MemoryUsedMB := 0
    PeakMemoryMB := 0 }

/-! ### Bidder pool fan-out (the pool source file) -/

/-- Bidder identity. The decision protocol of a bidder lives in a file
whose internals the pool never inspects, so only the identity matters
here. -/
structure Bidder where
  id : Int
deriving DecidableEq, Repr

/-- Pool from the pool source file: the bidder roster and its
configuration. -/
structure Pool where
  bidders : List Bidder
  config : BidderConfig
deriving DecidableEq, Repr

/-- One launched (bidder, auction) participation goroutine together with
the deadline of the context.WithTimeout scope it is given. -/
structure PairTask where
  bidder : Bidder
  auction : Auction
  deadline : Int
deriving DecidableEq, Repr

/-- The nested loops of ParticipateInAllAuctions (pool source lines
41-63): for each bidder, for each auction, launch one task whose fresh
timeout scope uses that auction.Timeout. -/
def pairTasks (bs : List Bidder) (aucs : List Auction) : List PairTask :=
  bs.flatMap fun b => aucs.map fun a => ⟨b, a, a.Timeout⟩

/-- ParticipateInAllAuctions from the pool source file, returning the
list of launched tasks; the wg.Wait makes the Go function return only
once every task is done, so the full list is what the call accounts
for. -/
def Pool.ParticipateInAllAuctions (p : Pool) (aucs : List Auction) :
    List PairTask :=
  pairTasks p.bidders aucs

/-! ### Slice store for GetAllBids (auction.go lines 163-171)

Go slices are references into a heap; to state that GetAllBids returns
a fresh copy rather than an alias, bid slices live in a store mapping
references to contents, and a slice mutation writes through its
reference. -/

/-- A store of allocated bid slices: references below `next` are
allocated. -/
structure BidStore where
  data : Nat → List Bid
  next : Nat

/-- Overwrite the slice behind one reference (a mutation of that slice
leaves every other reference untouched only if no aliasing exists). -/
def writeSlice (s : BidStore) (r : Nat) (l : List Bid) : BidStore :=
  { data := fun i => if i = r then l else s.data i, next := s.next }

/-- GetAllBids from auction.go lines 163-171: allocate a fresh slice,
copy the bids of the auction behind `aRef` into it, and return the new
reference together with the updated store. -/
def GetAllBids (s : BidStore) (aRef : Nat) : Nat × BidStore :=
  let bidsCopy := copyBids (s.data aRef)
  (s.next,
   { data := fun i => if i = s.next then bidsCopy else s.data i,
     next := s.next + 1 })

/-! ### Properties of the winner comparator -/

/-- Unfolding of a false comparison: b does not come before c exactly
when b bids strictly less, or ties on amount with a timestamp no
earlier than c. -/
lemma bidLess_eq_false_iff (b c : Bid) :
    bidLess b c = false ↔
      b.Amount < c.Amount ∨
        (b.Amount = c.Amount ∧ c.Timestamp ≤ b.Timestamp) := by
  unfold bidLess
  split_ifs with h
  · simp [h, not_lt, lt_irrefl]
  · simp only [decide_eq_false_iff_not, not_lt, gt_iff_lt]
    constructor
    · intro hle
      exact Or.inl (lt_of_le_of_ne hle h)
    · rintro (hlt | ⟨heq, _⟩)
      · exact le_of_lt hlt
      · exact absurd heq h

/-- Unfolding of a true comparison. -/
lemma bidLess_eq_true_iff (b c : Bid) :
    bidLess b c = true ↔
      c.Amount < b.Amount ∨
        (b.Amount = c.Amount ∧ b.Timestamp < c.Timestamp) := by
  unfold bidLess
  split_ifs with h
  · simp [h, lt_irrefl]
  · simp only [decide_eq_true_eq, gt_iff_lt]
    constructor
    · exact Or.inl
    · rintro (hlt | ⟨heq, _⟩)
      · exact hlt
      · exact absurd heq h

/-- The comparator is irreflexive. -/
lemma bidLess_self (b : Bid) : bidLess b b = false := by
  rw [bidLess_eq_false_iff]
  exact Or.inr ⟨rfl, le_refl _⟩

/-- The comparator is asymmetric. -/
lemma bidLess_asymm {b c : Bid} (h : bidLess b c = true) :
    bidLess c b = false := by
  rw [bidLess_eq_true_iff] at h
  rw [bidLess_eq_false_iff]
  rcases h with hlt | ⟨heq, hts⟩
  · exact Or.inl hlt
  · exact Or.inr ⟨heq.symm, le_of_lt hts⟩

/-- Negative transitivity: not coming before is transitive, as for any
strict weak order. -/
lemma bidLess_false_trans {b c d : Bid} (h1 : bidLess b c = false)
    (h2 : bidLess c d = false) : bidLess b d = false := by
  rw [bidLess_eq_false_iff] at h1 h2 ⊢
  rcases h1 with h1 | ⟨h1e, h1t⟩ <;> rcases h2 with h2 | ⟨h2e, h2t⟩
  · exact Or.inl (lt_trans h1 h2)
  · exact Or.inl (h2e ▸ h1)
  · exact Or.inl (h1e ▸ h2)
  · exact Or.inr ⟨h1e.trans h2e, le_trans h2t h1t⟩

/-! ### Properties of the sort -/

/-- Membership in an insertion. -/
lemma mem_insertBid {b x : Bid} {l : List Bid} :
    b ∈ insertBid x l ↔ b = x ∨ b ∈ l := by
  induction l with
  | nil => simp [insertBid]
  | cons y ys ih =>
      by_cases hyx : bidLess y x = true
      · simp only [insertBid, hyx, if_true, List.mem_cons, ih]
        tauto
      · rw [insertBid, if_neg hyx]
        simp only [List.mem_cons]

/-- Insertion produces a permutation. -/
lemma insertBid_perm (x : Bid) (l : List Bid) :
    (insertBid x l).Perm (x :: l) := by
  induction l with
  | nil => simp [insertBid]
  | cons y ys ih =>
      by_cases hyx : bidLess y x = true
      · simp only [insertBid, hyx, if_true]
        exact (ih.cons y).trans (List.Perm.swap x y ys)
      · simp [insertBid, hyx]

/-- Sorting produces a permutation of the input. -/
lemma sortBids_perm (l : List Bid) : (sortBids l).Perm l := by
  induction l with
  | nil => simp [sortBids]
  | cons x xs ih =>
      exact (insertBid_perm x (sortBids xs)).trans (ih.cons x)

/-- The head of the sorted list is minimal for the comparator: no bid of
the input comes before it. -/
lemma sortBids_head_min :
    ∀ (l : List Bid) (w : Bid) (rest : List Bid),
      sortBids l = w :: rest → ∀ b ∈ l, bidLess b w = false := by
  intro l
  induction l with
  | nil => intro w rest h; simp [sortBids] at h
  | cons x xs ih =>
      intro w rest hsort b hb
      rcases hs : sortBids xs with _ | ⟨y, ys⟩
      · -- the tail sorts to the empty list, so w = x and b = x
        rw [sortBids, hs] at hsort
        simp only [insertBid] at hsort
        injection hsort with hxw _
        rcases List.mem_cons.mp hb with hbx | hbxs
        · rw [hbx, ← hxw]
          exact bidLess_self x
        · exfalso
          have : b ∈ sortBids xs := ((sortBids_perm xs).mem_iff).mpr hbxs
          rw [hs] at this
          simp at this
      · rw [sortBids, hs] at hsort
        by_cases hyx : bidLess y x = true
        · -- x sinks past the head y, which stays minimal
          rw [insertBid, if_pos hyx] at hsort
          injection hsort with hyw _
          rw [← hyw]
          rcases List.mem_cons.mp hb with hbx | hbxs
          · rw [hbx]; exact bidLess_asymm hyx
          · exact ih y ys hs b hbxs
        · -- x becomes the new head
          rw [insertBid, if_neg hyx] at hsort
          injection hsort with hxw _
          rw [← hxw]
          rcases List.mem_cons.mp hb with hbx | hbxs
          · rw [hbx]; exact bidLess_self x
          · have hby : bidLess b y = false := ih y ys hs b hbxs
            have hyx' : bidLess y x = false := Bool.eq_false_iff.mpr hyx
            exact bidLess_false_trans hby hyx'

/-- A nonempty bid list sorts to a nonempty list. -/
lemma sortBids_ne_nil {l : List Bid} (h : l ≠ []) : sortBids l ≠ [] := by
  intro hnil
  have hlen := (sortBids_perm l).length_eq
  rw [hnil] at hlen
  exact h (List.length_eq_zero.mp hlen.symm)

/-! ### Concrete data for witnesses -/

/-- A concrete auction item (the vintage camera of the model tests). -/
def sampleItem : AuctionItem :=
  ⟨1, "Vintage Camera", "Electronics", "Canon", "Used", "Black", "Small",
   1, "Metal", 1980, "Japan", "Rare", 100, "A camera", "Lens", 12, 2,
   "10 x 10 x 10", "None", 8⟩

/-- First bid of the worked scenario of the specification: amount 100
at instant 0. -/
def bidA : Bid := ⟨1, 1, 100, 0⟩

/-- Second bid of the worked scenario: amount 150 at instant 1. -/
def bidB : Bid := ⟨2, 1, 150, 1⟩

/-- Third bid of the worked scenario: amount 120 at instant 2. -/
def bidC : Bid := ⟨3, 1, 120, 2⟩

/-- The three bids of the worked scenario of the specification. -/
def sampleBids : List Bid := [bidA, bidB, bidC]

/-- A concrete auction holding the three sample bids. -/
def sampleAuction : Auction := ⟨1, sampleItem, 200, sampleBids, 0, 200⟩

/-! ### Claim theorems: winner determination -/

/-- C1: for every nonempty bid list of one auction, determineWinner
returns a result whose WinningBid is some collected bid, with amount at
least that of every collected bid, and with the earliest timestamp among
the collected bids of that maximal amount. -/
theorem determineWinner_correct (a : Auction) (h : a.bids ≠ []) :
    ∃ w : Bid, (a.determineWinner).WinningBid = some w ∧ w ∈ a.bids ∧
      ∀ b ∈ a.bids, b.Amount ≤ w.Amount ∧
        (b.Amount = w.Amount → w.Timestamp ≤ b.Timestamp) := by
  have hlen : ¬a.bids.length = 0 := fun hl => h (List.length_eq_zero.mp hl)
  rcases hsort : sortBids a.bids with _ | ⟨w, rest⟩
  · exact absurd hsort (sortBids_ne_nil h)
  · refine ⟨w, ?_, ?_, ?_⟩
    · simp [Auction.determineWinner, hlen, hsort]
    · have hw : w ∈ sortBids a.bids := by rw [hsort]; exact List.mem_cons_self w rest
      exact ((sortBids_perm a.bids).mem_iff).mp hw
    · intro b hb
      have hmin := sortBids_head_min a.bids w rest hsort b hb
      rw [bidLess_eq_false_iff] at hmin
      rcases hmin with hlt | ⟨heq, hts⟩
      · exact ⟨le_of_lt hlt, fun heq' => absurd heq' (ne_of_lt hlt)⟩
      · exact ⟨le_of_eq heq, fun _ => hts⟩

/-- C1 witness: the theorem applied to the concrete three-bid
scenario. -/
theorem determineWinner_correct_witness :
    sampleAuction.bids ≠ [] ∧
    (∃ w : Bid, (sampleAuction.determineWinner).WinningBid = some w ∧
      w ∈ sampleAuction.bids ∧
      ∀ b ∈ sampleAuction.bids, b.Amount ≤ w.Amount ∧
        (b.Amount = w.Amount → w.Timestamp ≤ b.Timestamp)) :=
  ⟨by decide, determineWinner_correct sampleAuction (by decide)⟩

/-- C2: every result of determineWinner has status completed or no_bids,
carries a winning bid exactly when the status is completed and at least
one bid was counted, and status no_bids forces no winner and a zero bid
count. -/
theorem determineWinner_invariant (a : Auction) :
    ((a.determineWinner).Status = "completed" ∨
      (a.determineWinner).Status = "no_bids") ∧
    ((a.determineWinner).WinningBid ≠ none ↔
      ((a.determineWinner).Status = "completed" ∧
        1 ≤ (a.determineWinner).TotalBids)) ∧
    ((a.determineWinner).Status = "no_bids" →
      (a.determineWinner).WinningBid = none ∧
        (a.determineWinner).TotalBids = 0) := by
  by_cases hlen : a.bids.length = 0
  · refine ⟨Or.inr ?_, ?_, ?_⟩ <;> simp [Auction.determineWinner, hlen]
  · have hne : a.bids ≠ [] := fun hnil => hlen (by rw [hnil]; rfl)
    rcases hsort : sortBids a.bids with _ | ⟨w, rest⟩
    · exact absurd hsort (sortBids_ne_nil hne)
    · refine ⟨Or.inl ?_, ?_, ?_⟩ <;>
        (simp [Auction.determineWinner, hlen, hsort]; try omega)

/-- Two distinct bidders bidding the same amount at the same instant. -/
def tieBid1 : Bid := ⟨1, 1, 100, 5⟩

/-- The second of the two exactly tied bids. -/
def tieBid2 : Bid := ⟨2, 1, 100, 5⟩

/-- An auction that received the two tied bids in one order. -/
def tieAuctionA : Auction := ⟨1, sampleItem, 200, [tieBid1, tieBid2], 0, 200⟩

/-- The same auction with the two tied bids in the other order. -/
def tieAuctionB : Auction := ⟨1, sampleItem, 200, [tieBid2, tieBid1], 0, 200⟩

/-- C4 counterexample: two arrival orders of the same multiset of bids
can resolve to different winners. When two distinct bids tie on both
amount and timestamp, the sort keeps the first-arrived one on top, so
the winning BidderID depends on arrival order. -/
theorem determineWinner_order_matters :
    (tieAuctionA.bids).Perm tieAuctionB.bids ∧
      tieAuctionA.determineWinner ≠ tieAuctionB.determineWinner :=
  ⟨List.Perm.swap tieBid2 tieBid1 [], by decide⟩

/-- C4 amended: for bid lists in which no two distinct bids agree on
both amount and timestamp, determineWinner resolves the same winner for
any two arrival orders of the same multiset of bids. -/
theorem determineWinner_perm_invariant (a : Auction) (l : List Bid)
    (hperm : a.bids.Perm l)
    (hsep : ∀ b ∈ a.bids, ∀ c ∈ a.bids,
      b.Amount = c.Amount → b.Timestamp = c.Timestamp → b = c) :
    a.determineWinner = ({ a with bids := l } : Auction).determineWinner := by
  by_cases hnil : a.bids = []
  · have hlnil : l = [] := by
      rw [hnil] at hperm
      exact hperm.symm.eq_nil
    simp [Auction.determineWinner, hnil, hlnil]
  · have hlen1 : ¬a.bids.length = 0 := fun hl => hnil (List.length_eq_zero.mp hl)
    have hlen2 : ¬l.length = 0 := by rw [← hperm.length_eq]; exact hlen1
    have hlnil : l ≠ [] := fun hl => hlen2 (by rw [hl]; rfl)
    rcases hs1 : sortBids a.bids with _ | ⟨w1, r1⟩
    · exact absurd hs1 (sortBids_ne_nil hnil)
    rcases hs2 : sortBids l with _ | ⟨w2, r2⟩
    · exact absurd hs2 (sortBids_ne_nil hlnil)
    have hw1mem : w1 ∈ a.bids := ((sortBids_perm a.bids).mem_iff).mp
      (by rw [hs1]; exact List.mem_cons_self w1 r1)
    have hw2mem : w2 ∈ a.bids := hperm.mem_iff.mpr
      (((sortBids_perm l).mem_iff).mp (by rw [hs2]; exact List.mem_cons_self w2 r2))
    have h21 : bidLess w2 w1 = false :=
      sortBids_head_min a.bids w1 r1 hs1 w2 hw2mem
    have h12 : bidLess w1 w2 = false :=
      sortBids_head_min l w2 r2 hs2 w1 (hperm.mem_iff.mp hw1mem)
    rw [bidLess_eq_false_iff] at h21 h12
    have hAmount : w1.Amount = w2.Amount := by
      rcases h21 with h | ⟨h, _⟩ <;> rcases h12 with h' | ⟨h', _⟩ <;> linarith [h, h']
    have hTime : w1.Timestamp = w2.Timestamp := by
      rcases h21 with h | ⟨_, h⟩ <;> rcases h12 with h' | ⟨_, h'⟩ <;>
        first
          | (exfalso; linarith)
          | omega
    have hw : w1 = w2 := hsep w1 hw1mem w2 hw2mem hAmount hTime
    simp only [Auction.determineWinner, hs1, hs2]
    rw [if_neg hlen1, if_neg hlen2]
    simp [hperm.length_eq, hw]

/-- The sample bids in a different arrival order. -/
def samplePermBids : List Bid := [bidB, bidA, bidC]

/-- C4 amended witness: the invariance theorem applied to the concrete
three-bid scenario and a transposition of it. -/
theorem determineWinner_perm_invariant_witness :
    sampleAuction.bids.Perm samplePermBids ∧
    (∀ b ∈ sampleAuction.bids, ∀ c ∈ sampleAuction.bids,
      b.Amount = c.Amount → b.Timestamp = c.Timestamp → b = c) ∧
    sampleAuction.determineWinner =
      ({ sampleAuction with bids := samplePermBids } : Auction).determineWinner :=
  ⟨List.Perm.swap bidB bidA [bidC], by decide,
    determineWinner_perm_invariant sampleAuction samplePermBids
      (List.Perm.swap bidB bidA [bidC]) (by decide)⟩

/-! ### Claim theorems: aggregation -/

/-- Closed form of the aggregation loop: it adds the bid-count sum, the
success count and the failure count of the remaining results to the
accumulators. -/
lemma aggLoop_spec (rs : List AuctionResult) (tb s f : Nat) :
    aggLoop rs (tb, s, f) =
      (tb + (rs.map AuctionResult.TotalBids).sum,
       s + rs.countP isSuccess,
       f + rs.countP fun r => !isSuccess r) := by
  induction rs generalizing tb s f with
  | nil => simp [aggLoop]
  | cons r rest ih =>
      cases hr : isSuccess r <;>
        simp [aggLoop, hr, ih, List.countP_cons] <;> omega

/-- C3: the total bid count of the aggregated simulation result is the
sum of the per-auction bid counts over all collected results. -/
theorem AggregateResults_totalBids (m : Manager) :
    (m.AggregateResults).TotalBids =
      (m.Results.map AuctionResult.TotalBids).sum := by
  simp only [Manager.AggregateResults, aggLoop_spec]
  simp

/-- C6: the aggregation counts as successful exactly the collected
results with status completed and a present winning bid, counts every
other collected result as failed, and takes the total duration from the
recorded end and start instants of the Manager itself. -/
theorem AggregateResults_classification (m : Manager) :
    (m.AggregateResults).SuccessfulAuctions =
        m.Results.countP (fun r => r.Status == "completed" && r.WinningBid.isSome) ∧
      (m.AggregateResults).FailedAuctions =
        m.Results.countP (fun r => !(r.Status == "completed" && r.WinningBid.isSome)) ∧
      (m.AggregateResults).TotalDuration = m.EndTime - m.StartTime := by
  refine ⟨?_, ?_, rfl⟩
  · simp only [Manager.AggregateResults, aggLoop_spec]
    simp
    rfl
  · simp only [Manager.AggregateResults, aggLoop_spec]
    simp [isSuccess]

/-- C9: successes and failures partition the collected results, while
TotalAuctions is copied from the configured auction count and does not
depend on how many results were collected. -/
theorem AggregateResults_partition (m : Manager) :
    (m.AggregateResults).SuccessfulAuctions +
        (m.AggregateResults).FailedAuctions = m.Results.length ∧
      (m.AggregateResults).TotalAuctions = m.config.Auction.TotalAuctions := by
  refine ⟨?_, rfl⟩
  simp only [Manager.AggregateResults, aggLoop_spec]
  simpa using (List.length_eq_countP_add_countP isSuccess m.Results).symm

/-! ### Claim theorems: bid collection -/

/-- The post-deadline drain appends exactly its buffered bids. -/
lemma drainBuffered_eq (a : Auction) (buf : List Bid) :
    drainBuffered a buf = { a with bids := a.bids ++ buf } := by
  induction buf generalizing a with
  | nil => simp [drainBuffered]
  | cons b rest ih => simp [drainBuffered, ih]

/-- The collection loop appends the pre-deadline arrivals and then the
buffered leftovers. -/
lemma collectBids_eq (a : Auction) (pre buf : List Bid) :
    collectBids a pre buf = { a with bids := a.bids ++ pre ++ buf } := by
  induction pre generalizing a with
  | nil => simp [collectBids, drainBuffered_eq]
  | cons b rest ih => simp [collectBids, ih]

/-- C5: once the deadline fires, the drain appends exactly the bids
already buffered in the channel and returns (it consumes nothing beyond
its buffered input by construction), and Run is a total function of the
delivered bid streams producing exactly one AuctionResult: the one
determined from the recorded bids. -/
theorem Run_collects_buffered (a : Auction) (startT endT : Int)
    (pre buf : List Bid) :
    (drainBuffered a buf).bids = a.bids ++ buf ∧
    (collectBids a pre buf).bids = a.bids ++ pre ++ buf ∧
    a.Run startT endT pre buf =
      ({ a with startTime := startT, endTime := endT,
                bids := a.bids ++ pre ++ buf } : Auction).determineWinner := by
  refine ⟨by rw [drainBuffered_eq], by rw [collectBids_eq], ?_⟩
  rw [Auction.Run, collectBids_eq]

/-! ### Claim theorems: pool fan-out -/

/-- Length of the fan-out: one task per (bidder, auction) pair. -/
lemma pairTasks_length (bs : List Bidder) (aucs : List Auction) :
    (pairTasks bs aucs).length = bs.length * aucs.length := by
  induction bs with
  | nil => simp [pairTasks]
  | cons x bs ih =>
      simp only [pairTasks, List.flatMap_cons, List.length_append,
        List.length_map, List.length_cons] at *
      rw [ih]
      ring

/-- Membership in the fan-out: exactly the pairs of the rosters, each
with the deadline of its own auction. -/
lemma pairTasks_mem (bs : List Bidder) (aucs : List Auction) (t : PairTask) :
    t ∈ pairTasks bs aucs ↔
      t.bidder ∈ bs ∧ t.auction ∈ aucs ∧ t.deadline = t.auction.Timeout := by
  simp only [pairTasks, List.mem_flatMap, List.mem_map]
  constructor
  · rintro ⟨b, hb, a, ha, rfl⟩
    exact ⟨hb, ha, rfl⟩
  · rintro ⟨hb, ha, hd⟩
    refine ⟨t.bidder, hb, t.auction, ha, ?_⟩
    cases t
    simp_all

/-- Multiplicity in the fan-out: each (bidder, auction) pair appears as
many times as it does in the two rosters, so exactly once for rosters
without duplicates. -/
lemma pairTasks_countP (bs : List Bidder) (aucs : List Auction)
    (b : Bidder) (a : Auction) :
    (pairTasks bs aucs).countP (fun t => t.bidder == b && t.auction == a) =
      bs.countP (fun x => x == b) * aucs.countP (fun y => y == a) := by
  induction bs with
  | nil => simp [pairTasks]
  | cons x bs ih =>
      simp only [pairTasks, List.flatMap_cons, List.countP_append,
        List.countP_map, List.countP_cons] at *
      rw [ih]
      by_cases hxb : x = b
      · subst hxb
        simp [Function.comp_def, Nat.add_mul, Nat.add_comm]
      · simp [Function.comp_def, hxb]

/-- C7: the pool launches exactly one participation task per (bidder,
auction) pair of the cross-product, each bound to a fresh deadline equal
to the Timeout of its own auction, and the returned task list accounts
for every launched task. -/
theorem ParticipateInAllAuctions_cross (p : Pool) (aucs : List Auction) :
    (p.ParticipateInAllAuctions aucs).length = p.bidders.length * aucs.length ∧
    (∀ t : PairTask, t ∈ p.ParticipateInAllAuctions aucs ↔
      (t.bidder ∈ p.bidders ∧ t.auction ∈ aucs ∧
        t.deadline = t.auction.Timeout)) ∧
    (∀ (b : Bidder) (a : Auction),
      (p.ParticipateInAllAuctions aucs).countP
          (fun t => t.bidder == b && t.auction == a) =
        p.bidders.countP (fun x => x == b) * aucs.countP (fun y => y == a)) :=
  ⟨pairTasks_length p.bidders aucs,
   fun t => pairTasks_mem p.bidders aucs t,
   fun b a => pairTasks_countP p.bidders aucs b a⟩

/-! ### Claim theorems: configuration validation -/

/-- C8: Validate rejects a configuration exactly when the auction count
is nonpositive, the bidder count is nonpositive, or the bid probability
falls outside the closed unit interval; every other configuration
passes with a nil error. -/
theorem Validate_error_iff (c : Config) :
    c.Validate ≠ none ↔
      (c.Auction.TotalAuctions ≤ 0 ∨ c.Bidder.TotalBidders ≤ 0 ∨
        c.Bidder.BidProbability < 0 ∨ 1 < c.Bidder.BidProbability) := by
  unfold Config.Validate
  split_ifs with h1 h2 h3 <;> simp_all

/-! ### Claim theorems: bid-list access -/

/-- Element-wise copying reproduces the bid list. -/
lemma copyBids_eq (l : List Bid) : copyBids l = l := by
  induction l with
  | nil => rfl
  | cons b bs ih => rw [copyBids, ih]

/-- C10: GetAllBids hands out a fresh slice whose contents equal the
internal bid list at the time of the call, and overwriting that slice
leaves the internal bid list of the auction unchanged. -/
theorem GetAllBids_fresh_copy (s : BidStore) (aRef : Nat)
    (h : aRef < s.next) (l : List Bid) :
    ((GetAllBids s aRef).2).data (GetAllBids s aRef).1 = s.data aRef ∧
    (writeSlice (GetAllBids s aRef).2 (GetAllBids s aRef).1 l).data aRef =
      s.data aRef := by
  have hne : aRef ≠ s.next := Nat.ne_of_lt h
  constructor
  · simp [GetAllBids, copyBids_eq]
  · simp [GetAllBids, writeSlice, hne]

/-- A store holding one allocated bid list. -/
def sampleStore : BidStore := ⟨fun _ => sampleBids, 1⟩

/-- C10 witness: the copy theorem applied to the one-slice store, with
the returned slice then overwritten by the empty list. -/
theorem GetAllBids_fresh_copy_witness :
    0 < sampleStore.next ∧
    (((GetAllBids sampleStore 0).2).data (GetAllBids sampleStore 0).1 =
        sampleStore.data 0 ∧
      (writeSlice (GetAllBids sampleStore 0).2 (GetAllBids sampleStore 0).1
          []).data 0 = sampleStore.data 0) :=
  ⟨by decide, GetAllBids_fresh_copy sampleStore 0 (by decide) []⟩

end AuctionSim
